import Mathlib

/-!
# Verification of the `/predict` endpoint of `opensource_llm_api`

Shallow embedding of `src/main.py`, the only original source file of the
repository.  Python strings are modelled as `List Char` in the trimmer core
(a Python `str` is a sequence of characters), with `String` wrappers at the
HTTP boundary.

The endpoint does four things (line numbers refer to `src/main.py`):

* read the query parameters `input`, `instruction` and `model`, each
  defaulting to the empty string (lines 12-14);
* compose the prompt `'instruction: ' + instruction + '\ninput: ' +
  user_text + '\noutput:'` (line 16) and call the external generation
  service with it and `max_length = 100` (lines 18-19);
* drain the streamed response into a list and concatenate it with
  `''.join(output)` (lines 22-28);
* trim the concatenation to whole sentences:
  `re.split("(?<=[.!?]) +", text)` (line 28), keep the pieces matching
  `re.search("[.!?]$", s)` (line 31), rejoin with `' '.join(sentences)`
  (line 34).

The two regexes are embedded character by character:

* `"(?<=[.!?]) +"` matches a maximal nonempty run of space characters
  (`' '`, U+0020 only — the pattern is a literal space, not `\s`) whose
  position is immediately preceded by `'.'`, `'!'` or `'?'`; `re.split`
  removes every such match, scanning left to right.
* `re.search("[.!?]$", s)` succeeds iff `s` ends in `'.'`, `'!'` or `'?'`,
  or ends in one of those followed by a single final `'\n'` (Python `$`
  without `re.MULTILINE` also matches just before a newline that ends the
  string).
-/

namespace PredictApi

/-- The sentence-terminator character class `[.!?]` used by both regexes on
lines 28 and 31 of `src/main.py`. -/
def isPunct (c : Char) : Bool := c = '.' || c = '!' || c = '?'

/-- Whether a string starts with the space character `' '` — the only
character the pattern `" +"` of line 28 can match. -/
def headSpace : List Char → Bool
  | [] => false
  | c :: _ => c = ' '

/-- Remove the maximal run of leading spaces: the greedy match of `" +"`. -/
def dropSpaces : List Char → List Char
  | [] => []
  | c :: rest => if c = ' ' then dropSpaces rest else c :: rest

/-- Direct left-to-right embedding of `re.split("(?<=[.!?]) +", text)`
(line 28 of `src/main.py`): scan the text, and whenever the current
character is one of `.!?` and the next character is a space (the leftmost
match of the pattern, whose lookbehind requires the terminator), close the
current candidate after the terminator and consume the whole space run
(the greedy match); otherwise extend the current candidate.  `acc` is the
candidate accumulated so far. -/
def splitScan (acc : List Char) (l : List Char) : List (List Char) :=
  match l with
  | [] => [acc]
  | c :: rest =>
    if isPunct c && headSpace rest then
      (acc ++ [c]) :: splitScan [] (dropSpaces rest)
    else
      splitScan (acc ++ [c]) rest
termination_by l.length
decreasing_by
  all_goals simp_wf
  all_goals
    have h : ∀ m : List Char, (dropSpaces m).length ≤ m.length := by
      intro m
      induction m with
      | nil => simp [dropSpaces]
      | cons d tail ih =>
        by_cases hd : d = ' ' <;> simp [dropSpaces, hd] <;> omega
  all_goals exact Nat.lt_succ_of_le (h _)

/-- Structural reformulation of the split of line 28, recursing on the tail:
prepending `c` to `rest` either opens a fresh split point (when `c` is a
terminator and `rest` starts with a space, the spaces that `rest`'s own scan
kept at the head of its first candidate are consumed) or just extends the
first candidate.  `splitScan_eq_sentSplit` proves it equal to the scan `splitScan`;
it is the version the rest of the development computes with. -/
def sentSplit : List Char → List (List Char)
  | [] => [[]]
  | c :: rest =>
    if isPunct c && headSpace rest then
      [c] :: (sentSplit rest).modifyHead dropSpaces
    else
      (sentSplit rest).modifyHead (c :: ·)

/-- Embedding of `re.search("[.!?]$", s)` (line 31 of `src/main.py`) on the
reversed string: the last character is a terminator, or the last character
is `'\n'` and the one before it is a terminator (Python `$` also matches
just before a newline that ends the string). -/
def keepRev : List Char → Bool
  | [] => false
  | [a] => isPunct a
  | a :: b :: _ => isPunct a || (a = '\n' && isPunct b)

/-- The filter of line 31 of `src/main.py`: keep a candidate sentence iff
`re.search("[.!?]$", s)` succeeds on it. -/
def keep (s : List Char) : Bool := keepRev s.reverse

/-- `' '.join(sentences)` of line 34 of `src/main.py`. -/
def joinSp : List (List Char) → List Char
  | [] => []
  | [x] => x
  | x :: xs => x ++ ' ' :: joinSp xs

/-- The whole sentence trimmer of lines 28-34 of `src/main.py`: split,
filter, rejoin. -/
def trimChars (l : List Char) : List Char :=
  joinSp ((sentSplit l).filter keep)

/-- The trimmer at the `String` boundary: `final_response` of
`src/main.py` as a function of the concatenated stream text. -/
def trimSentences (s : String) : String :=
  String.mk (trimChars s.data)

/-- The call made to the external generation service on lines 18-19 of
`src/main.py`: the model identifier, the composed prompt and the fixed
`max_length` parameter. -/
structure GenRequest where
  model : String
  prompt : String
  maxLength : Nat
deriving DecidableEq

/-- `request.args.get(name, '')` (lines 12-14 of `src/main.py`): the query
string is a partial map from parameter names to values, and an absent
parameter defaults to `''`. -/
def getArg (args : String → Option String) (name : String) : String :=
  (args name).getD ""

/-- The prompt template of line 16 of `src/main.py`. -/
def composePrompt (instruction userText : String) : String :=
  "instruction: " ++ instruction ++ "\ninput: " ++ userText ++ "\noutput:"

/-- The request the handler submits to the external service (lines 12-19 of
`src/main.py`), as a function of the inbound query parameters. -/
def predictRequest (args : String → Option String) : GenRequest :=
  { model := getArg args "model"
    prompt := composePrompt (getArg args "instruction") (getArg args "input")
    maxLength := 100 }

/-- Lines 22-34 of `src/main.py`: the streamed response is drained into a
list of fragments, concatenated with `''.join(output)`, trimmed, and the
result is the `response` field of the JSON payload.  The external service
is a black box, so the fragment list is a parameter. -/
def predictResponse (fragments : List String) : String :=
  trimSentences (String.join fragments)

/-- A string ends in one of the terminators `.!?` (used to state the spec's
filtering rule and the invariants of the candidate list). -/
def endsPunct (l : List Char) : Bool := l.getLast?.any isPunct

/-- No qualifying split boundary inside the string: no occurrence of a
terminator immediately followed by a space character. -/
def noBoundary : List Char → Bool
  | a :: b :: rest => !(isPunct a && b = ' ') && noBoundary (b :: rest)
  | _ => true

/-- No occurrence of a terminator followed by two or more consecutive
spaces (the condition under which the rejoin of line 34 reproduces the
separators the split of line 28 consumed). -/
def noDoubleSpace : List Char → Bool
  | a :: b :: c :: rest => !(isPunct a && b = ' ' && c = ' ') && noDoubleSpace (b :: c :: rest)
  | _ => true

/-- Declarative statement of the splitting rule of Step 2 of the spec, with
the separator class read as the space character (which is what the pattern
`" +"` of line 28 matches): `Decomp l cs` says `cs` lists the candidate
sentences of `l` in order, cut exactly at the points after a terminator
that is followed by one or more spaces.  Between two consecutive candidates
a nonempty run of spaces is consumed and kept in neither piece; the
terminator stays at the end of the preceding candidate; no candidate
contains a further qualifying boundary, and no candidate after a consumed
run starts with a space (the run is maximal). -/
inductive Decomp : List Char → List (List Char) → Prop where
  | last (c : List Char) (hnb : noBoundary c = true) : Decomp c [c]
  | step (c : List Char) (k : Nat) (rest : List Char) (cs : List (List Char))
      (hnb : noBoundary c = true) (hp : endsPunct c = true) (hk : 0 < k)
      (hrest : headSpace rest = false) (hd : Decomp rest cs) :
      Decomp (c ++ List.replicate k ' ' ++ rest) (c :: cs)

/-- The filtering rule of Step 3 as the code's regex actually decides it:
the candidate ends in a terminator, or in a terminator followed by one
final newline (the extra case Python's `$` anchor accepts). -/
def KeepSpec (c : List Char) : Prop :=
  (∃ l p, isPunct p = true ∧ c = l ++ [p]) ∨
    (∃ l p, isPunct p = true ∧ c = l ++ [p, '\n'])

/-- Whether a string starts with a whitespace character, as the SPEC's Step 2
words the separator class ("one or more whitespace characters"). -/
def headWhite : List Char → Bool
  | [] => false
  | c :: _ => c.isWhitespace

/-- Remove a maximal run of leading whitespace characters (spec reading). -/
def dropWhite : List Char → List Char
  | [] => []
  | c :: rest => if c.isWhitespace then dropWhite rest else c :: rest

/-- The sentence split exactly as the SPEC's Step 2 words it: a split point
after any terminator followed by one or more WHITESPACE characters.  Same
structure as `sentSplit`, with the separator class `Char.isWhitespace`
instead of the space character; compared against `sentSplit` to settle the
splitting claim. -/
def specSplitWhite : List Char → List (List Char)
  | [] => [[]]
  | c :: rest =>
    if isPunct c && headWhite rest then
      [c] :: (specSplitWhite rest).modifyHead dropWhite
    else
      (specSplitWhite rest).modifyHead (c :: ·)

/-- A nonempty list of complete sentences, each nonempty and ending in a
terminator: the hypothesis of the idempotence claim on well-formed input. -/
def SentenceList (ss : List (List Char)) : Prop :=
  ss ≠ [] ∧ ∀ t ∈ ss, t ≠ [] ∧ endsPunct t = true

/-! ## Basic facts about the split pieces -/

theorem dropSpaces_length_le (m : List Char) : (dropSpaces m).length ≤ m.length := by
  induction m with
  | nil => simp [dropSpaces]
  | cons d tail ih => by_cases hd : d = ' ' <;> simp [dropSpaces, hd] <;> omega

theorem dropSpaces_cons_space (l : List Char) : dropSpaces (' ' :: l) = dropSpaces l := by
  simp [dropSpaces]

theorem dropSpaces_of_headSpace_eq_false (l : List Char) (h : headSpace l = false) :
    dropSpaces l = l := by
  cases l with
  | nil => rfl
  | cons c rest =>
    simp [headSpace] at h
    simp [dropSpaces, h]

theorem headSpace_dropSpaces (l : List Char) : headSpace (dropSpaces l) = false := by
  induction l with
  | nil => rfl
  | cons c rest ih =>
    by_cases hc : c = ' '
    · rw [show dropSpaces (c :: rest) = dropSpaces rest by simp [dropSpaces, hc]]
      exact ih
    · rw [show dropSpaces (c :: rest) = c :: rest by simp [dropSpaces, hc]]
      simp [headSpace, hc]

theorem dropSpaces_replicate_append (k : Nat) (l : List Char) :
    dropSpaces (List.replicate k ' ' ++ l) = dropSpaces l := by
  induction k with
  | zero => simp
  | succ n ih => simpa [List.replicate_succ, dropSpaces] using ih

theorem dropSpaces_decomposition (l : List Char) :
    ∃ k : Nat, l = List.replicate k ' ' ++ dropSpaces l ∧
      (headSpace l = true → 0 < k) := by
  induction l with
  | nil => exact ⟨0, by simp [dropSpaces], by simp [headSpace]⟩
  | cons c rest ih =>
    by_cases hc : c = ' '
    · obtain ⟨k, hk, _⟩ := ih
      refine ⟨k + 1, ?_, fun _ => Nat.succ_pos k⟩
      subst hc
      simpa [List.replicate_succ, dropSpaces] using hk
    · exact ⟨0, by simp [dropSpaces, hc], by simp [headSpace, hc]⟩

theorem modifyHead_congrFun (f g : List Char → List Char) (h : ∀ x, f x = g x)
    (l : List (List Char)) : l.modifyHead f = l.modifyHead g := by
  cases l <;> simp [List.modifyHead, h]

theorem modifyHead_comp (f g : List Char → List Char) (l : List (List Char)) :
    (l.modifyHead f).modifyHead g = l.modifyHead (fun x => g (f x)) := by
  cases l <;> simp [List.modifyHead]

/-! ## The two formulations of the split agree -/

theorem sentSplit_cons_true (c : Char) (rest : List Char)
    (hg : (isPunct c && headSpace rest) = true) :
    sentSplit (c :: rest) = [c] :: (sentSplit rest).modifyHead dropSpaces := by
  simp [sentSplit, hg]

theorem sentSplit_cons_flat (c : Char) (rest : List Char)
    (hg : (isPunct c && headSpace rest) = false) :
    sentSplit (c :: rest) = (sentSplit rest).modifyHead (c :: ·) := by
  simp [sentSplit, hg]

theorem sentSplit_ne_nil (l : List Char) : sentSplit l ≠ [] := by
  induction l with
  | nil => simp [sentSplit]
  | cons c rest ih =>
    by_cases hg : (isPunct c && headSpace rest) = true
    · simp [sentSplit_cons_true c rest hg]
    · rw [sentSplit_cons_flat c rest (by simpa using hg)]
      cases h : sentSplit rest with
      | nil => exact absurd h ih
      | cons x t => simp [List.modifyHead]

theorem sentSplit_dropSpaces (l : List Char) :
    sentSplit (dropSpaces l) = (sentSplit l).modifyHead dropSpaces := by
  induction l with
  | nil => simp [dropSpaces, sentSplit, List.modifyHead]
  | cons c rest ih =>
    by_cases hc : c = ' '
    · subst hc
      rw [dropSpaces_cons_space, ih]
      rw [sentSplit_cons_flat ' ' rest (by simp [isPunct])]
      rw [modifyHead_comp]
      exact modifyHead_congrFun _ _ (fun x => (dropSpaces_cons_space x).symm) _
    · rw [dropSpaces_of_headSpace_eq_false (c :: rest) (by simp [headSpace, hc])]
      by_cases hg : (isPunct c && headSpace rest) = true
      · rw [sentSplit_cons_true c rest hg]
        simp [List.modifyHead, dropSpaces, hc]
      · rw [sentSplit_cons_flat c rest (by simpa using hg)]
        rw [modifyHead_comp]
        cases sentSplit rest <;> simp [List.modifyHead, dropSpaces, hc]

theorem sentSplit_cons_split (c : Char) (rest : List Char)
    (hc : isPunct c = true) (hs : headSpace rest = true) :
    sentSplit (c :: rest) = [c] :: sentSplit (dropSpaces rest) := by
  rw [sentSplit_dropSpaces, sentSplit_cons_true c rest (by simp [hc, hs])]

/-- Strong induction along the recursion scheme of the scan of line 28: the
empty text, a split point, or an ordinary character. -/
theorem splitRecursion (P : List Char → Prop) (h0 : P [])
    (h1 : ∀ c rest, isPunct c = true → headSpace rest = true →
      P (dropSpaces rest) → P (c :: rest))
    (h2 : ∀ c rest, (isPunct c && headSpace rest) = false → P rest → P (c :: rest)) :
    ∀ l, P l := by
  have key : ∀ (n : Nat) (l : List Char), l.length ≤ n → P l := by
    intro n
    induction n with
    | zero =>
      intro l hl
      have : l = [] := by cases l <;> simp_all
      simpa [this] using h0
    | succ n ih =>
      intro l hl
      cases l with
      | nil => exact h0
      | cons c rest =>
        have hr : rest.length ≤ n := by simpa using hl
        by_cases hg : (isPunct c && headSpace rest) = true
        · have hc : isPunct c = true := by simp_all
          have hs : headSpace rest = true := by simp_all
          exact h1 c rest hc hs (ih _ (le_trans (dropSpaces_length_le rest) hr))
        · exact h2 c rest (by simpa using hg) (ih rest hr)
  exact fun l => key l.length l le_rfl

theorem splitScan_acc (l : List Char) :
    ∀ acc, splitScan acc l = (sentSplit l).modifyHead (acc ++ ·) := by
  induction l using splitRecursion with
  | h0 => intro acc; simp [splitScan.eq_1, sentSplit, List.modifyHead]
  | h1 c rest hc hs ih =>
    intro acc
    rw [splitScan.eq_2, sentSplit_cons_split c rest hc hs]
    simp only [hc, hs, Bool.and_self, if_true]
    rw [ih []]
    cases h : sentSplit (dropSpaces rest) with
    | nil => exact absurd h (sentSplit_ne_nil _)
    | cons x t => simp [List.modifyHead]
  | h2 c rest hg ih =>
    intro acc
    rw [splitScan.eq_2, sentSplit_cons_flat c rest hg]
    simp only [hg, Bool.false_eq_true, if_false]
    rw [ih (acc ++ [c]), modifyHead_comp]
    exact modifyHead_congrFun _ _ (fun x => by simp) _

/-- The left-to-right regex scan of line 28 and its structural
reformulation compute the same candidate list. -/
theorem splitScan_eq_sentSplit (l : List Char) : splitScan [] l = sentSplit l := by
  rw [splitScan_acc l []]
  cases h : sentSplit l with
  | nil => exact absurd h (sentSplit_ne_nil _)
  | cons x t => simp [List.modifyHead]

/-! ## Ends-in-terminator and boundary predicates -/

theorem endsPunct_ne_nil (l : List Char) (h : endsPunct l = true) : l ≠ [] := by
  intro e
  subst e
  simp [endsPunct] at h

theorem endsPunct_cons (c : Char) (l : List Char) (h : l ≠ []) :
    endsPunct (c :: l) = endsPunct l := by
  cases l with
  | nil => exact absurd rfl h
  | cons b t => simp [endsPunct, List.getLast?_cons_cons]

theorem endsPunct_concat (l : List Char) (p : Char) :
    endsPunct (l ++ [p]) = isPunct p := by
  simp [endsPunct, List.getLast?_concat]

theorem endsPunct_append (l m : List Char) (h : m ≠ []) :
    endsPunct (l ++ m) = endsPunct m := by
  simp [endsPunct, List.getLast?_append_of_ne_nil l h]

theorem noBoundary_tail (a : Char) (l : List Char) (h : noBoundary (a :: l) = true) :
    noBoundary l = true := by
  cases l with
  | nil => rfl
  | cons b t =>
    rw [noBoundary] at h
    exact (Bool.and_elim_right h)

theorem noBoundary_cons_of (c : Char) (l : List Char)
    (hg : (isPunct c && headSpace l) = false) (h : noBoundary l = true) :
    noBoundary (c :: l) = true := by
  cases l with
  | nil => rfl
  | cons b t =>
    rw [noBoundary, h]
    simp only [headSpace] at hg
    simp [hg]

theorem noBoundary_singleton (a : Char) : noBoundary [a] = true := rfl

theorem headSpace_of_noBoundary_cons (c : Char) (l : List Char)
    (hc : isPunct c = true) (h : noBoundary (c :: l) = true) :
    headSpace l = false := by
  cases l with
  | nil => rfl
  | cons b t =>
    rw [noBoundary] at h
    have := Bool.and_elim_left h
    simp only [hc, Bool.true_and, Bool.not_eq_eq_eq_not, Bool.not_true] at this
    simp [headSpace, this]

theorem noDoubleSpace_tail (a : Char) (l : List Char)
    (h : noDoubleSpace (a :: l) = true) : noDoubleSpace l = true := by
  cases l with
  | nil => rfl
  | cons b t =>
    cases t with
    | nil => rfl
    | cons c u =>
      rw [noDoubleSpace] at h
      exact (Bool.and_elim_right h)

/-! ## The split realizes the declarative decomposition -/

theorem decomp_ne_nil (l : List Char) (cs : List (List Char)) (hd : Decomp l cs) :
    cs ≠ [] := by
  cases hd <;> simp

theorem headSpace_append (l m : List Char) (h : l ≠ []) :
    headSpace (l ++ m) = headSpace l := by
  cases l with
  | nil => exact absurd rfl h
  | cons c t => simp [headSpace]

theorem decomp_cons_flat (c : Char) (rest : List Char) (cs : List (List Char))
    (hg : (isPunct c && headSpace rest) = false) (hd : Decomp rest cs) :
    Decomp (c :: rest) (cs.modifyHead (c :: ·)) := by
  cases hd with
  | last hnb =>
    rename_i hx
    exact Decomp.last (c :: rest) (noBoundary_cons_of c rest hg hx)
  | step d k rest' cs' hnb hp hk hrest hd' =>
    have hne : d ≠ [] := endsPunct_ne_nil d hp
    have hgd : (isPunct c && headSpace d) = false := by
      rw [show headSpace d = headSpace (d ++ (List.replicate k ' ' ++ rest'))
        from (headSpace_append d _ hne).symm]
      simpa using hg
    have hstep := Decomp.step (c :: d) k rest' cs'
      (noBoundary_cons_of c d hgd hnb)
      (by rw [endsPunct_cons c d hne]; exact hp) hk hrest hd'
    simpa using hstep


/-- Existence half of the characterization: the split of line 28 produces a
decomposition satisfying the declarative splitting rule. -/
theorem decomp_sentSplit (l : List Char) : Decomp l (sentSplit l) := by
  induction l using splitRecursion with
  | h0 => exact Decomp.last [] rfl
  | h1 c rest hc hs ih =>
    rw [sentSplit_cons_split c rest hc hs]
    obtain ⟨k, hk, hkpos⟩ := dropSpaces_decomposition rest
    have hstep := Decomp.step [c] k (dropSpaces rest) (sentSplit (dropSpaces rest))
      (noBoundary_singleton c) (by simpa [endsPunct] using hc)
      (hkpos hs) (headSpace_dropSpaces rest) ih
    have heq : ([c] ++ List.replicate k ' ' ++ dropSpaces rest) = c :: rest := by
      rw [List.append_assoc, ← hk]
      rfl
    rwa [heq] at hstep
  | h2 c rest hg ih =>
    rw [sentSplit_cons_flat c rest hg]
    exact decomp_cons_flat c rest (sentSplit rest) hg ih

/-- A string with no qualifying boundary is a single candidate. -/
theorem sentSplit_of_noBoundary (l : List Char) (h : noBoundary l = true) :
    sentSplit l = [l] := by
  induction l with
  | nil => rfl
  | cons c rest ih =>
    have hg : (isPunct c && headSpace rest) = false := by
      cases rest with
      | nil => simp [headSpace]
      | cons b t =>
        rw [noBoundary] at h
        have hh := Bool.and_elim_left h
        simp only [headSpace]
        cases hp : isPunct c with
        | false => simp
        | true => simpa [hp] using hh
    rw [sentSplit_cons_flat c rest hg, ih (noBoundary_tail c rest h)]
    rfl

/-- Splitting a text that starts with a complete boundary-free sentence, a
space run and a remainder that does not start with a space: the sentence is
cut off and the run is consumed. -/
theorem sentSplit_append (c : List Char) (k : Nat) (rest : List Char)
    (hnb : noBoundary c = true) (hp : endsPunct c = true) (hk : 0 < k)
    (hrest : headSpace rest = false) :
    sentSplit (c ++ List.replicate k ' ' ++ rest) = c :: sentSplit rest := by
  induction c with
  | nil => exact absurd hp (by simp [endsPunct])
  | cons a tail ih =>
    cases tail with
    | nil =>
      have ha : isPunct a = true := by simpa [endsPunct] using hp
      have hhead : headSpace (List.replicate k ' ' ++ rest) = true := by
        cases k with
        | zero => exact absurd hk (by simp)
        | succ n => simp [List.replicate_succ, headSpace]
      rw [show [a] ++ List.replicate k ' ' ++ rest = a :: (List.replicate k ' ' ++ rest)
        by simp]
      rw [sentSplit_cons_split a _ ha hhead]
      rw [dropSpaces_replicate_append k rest, dropSpaces_of_headSpace_eq_false rest hrest]
    | cons b t =>
      simp only [List.cons_append, List.append_assoc] at ih ⊢
      have hnb' : noBoundary (b :: t) = true := noBoundary_tail a (b :: t) hnb
      have hp2 : endsPunct (b :: t) = true := by
        rw [← endsPunct_cons a (b :: t) (by simp)]
        exact hp
      have hg : (isPunct a && headSpace (b :: (t ++ (List.replicate k ' ' ++ rest)))) = false := by
        rw [noBoundary] at hnb
        have hh := Bool.and_elim_left hnb
        cases hp' : isPunct a with
        | false => simp
        | true => simpa [hp', headSpace] using hh
      rw [sentSplit_cons_flat a _ hg, ih hnb' hp2]
      rfl

/-- Uniqueness half of the characterization: any decomposition satisfying
the declarative splitting rule is the one the split of line 28 computes. -/
theorem decomp_unique (l : List Char) (cs : List (List Char)) (hd : Decomp l cs) :
    sentSplit l = cs := by
  induction hd with
  | last c hnb => exact sentSplit_of_noBoundary c hnb
  | step c k rest' cs' hnb hp hk hrest hd ih =>
    rw [sentSplit_append c k rest' hnb hp hk hrest, ih]

/-! ## Facts about the filter and the rejoin -/

theorem keep_nil : keep [] = false := rfl

theorem keep_ne_nil (x : List Char) (h : keep x = true) : x ≠ [] := by
  intro e
  subst e
  simp [keep, keepRev] at h

theorem keep_concat_punct (l : List Char) (p : Char) (hp : isPunct p = true) :
    keep (l ++ [p]) = true := by
  rw [keep, List.reverse_append]
  cases l.reverse with
  | nil => simpa [keepRev]
  | cons a t => simp [keepRev, hp]

theorem keep_of_endsPunct (x : List Char) (h : endsPunct x = true) : keep x = true := by
  rw [endsPunct] at h
  cases hg : x.getLast? with
  | none => rw [hg] at h; simp [Option.any] at h
  | some p =>
    rw [hg] at h
    simp only [Option.any] at h
    have hx : x.dropLast ++ [p] = x := List.dropLast_append_getLast? p (by simp [hg])
    rw [← hx]
    exact keep_concat_punct x.dropLast p h

theorem joinSp_cons₂ (x y : List Char) (t : List (List Char)) :
    joinSp (x :: y :: t) = x ++ ' ' :: joinSp (y :: t) := rfl

theorem joinSp_cons_cons (c : Char) (h : List Char) (xs : List (List Char)) :
    joinSp ((c :: h) :: xs) = c :: joinSp (h :: xs) := by
  cases xs with
  | nil => rfl
  | cons y t => simp [joinSp_cons₂]

theorem joinSp_eq_nil (ks : List (List Char)) (hne : ∀ c ∈ ks, c ≠ [])
    (h : joinSp ks = []) : ks = [] := by
  cases ks with
  | nil => rfl
  | cons x t =>
    cases t with
    | nil => exact absurd h (hne x (by simp))
    | cons y u =>
      rw [joinSp_cons₂] at h
      rcases List.append_eq_nil.mp h with ⟨-, h2⟩
      exact absurd h2 (by simp)

theorem joinSp_headSpace (y : List Char) (t : List (List Char)) (h : y ≠ []) :
    headSpace (joinSp (y :: t)) = headSpace y := by
  cases t with
  | nil => rfl
  | cons z u => rw [joinSp_cons₂, headSpace_append y _ h]

theorem joinSp_endsPunct (ss : List (List Char)) (hne : ss ≠ [])
    (h : ∀ t ∈ ss, endsPunct t = true) : endsPunct (joinSp ss) = true := by
  induction ss with
  | nil => exact absurd rfl hne
  | cons x t ih =>
    cases t with
    | nil => exact h x (by simp)
    | cons y u =>
      have hy : endsPunct (joinSp (y :: u)) = true := by
        refine ih (by simp) ?_
        intro s hs
        exact h s (by simp [hs])
      have hjne : joinSp (y :: u) ≠ [] := by
        intro e
        rw [e] at hy
        simp [endsPunct] at hy
      rw [joinSp_cons₂, endsPunct_append x _ (by simp), endsPunct_cons ' ' _ hjne]
      exact hy

/-! ## Facts every decomposition provides about its candidates -/

theorem decomp_noBoundary (l : List Char) (cs : List (List Char)) (hd : Decomp l cs) :
    ∀ c ∈ cs, noBoundary c = true := by
  induction hd with
  | last c hnb => intro d hdmem; simp at hdmem; rwa [hdmem]
  | step c k rest' cs' hnb hp hk hrest hd ih =>
    intro d hdmem
    rcases List.mem_cons.mp hdmem with h | h
    · rwa [h]
    · exact ih d h

theorem decomp_dropLast_endsPunct (l : List Char) (cs : List (List Char))
    (hd : Decomp l cs) : ∀ c ∈ cs.dropLast, endsPunct c = true := by
  induction hd with
  | last c hnb => intro d hdmem; simp at hdmem
  | step c k rest' cs' hnb hp hk hrest hd ih =>
    intro d hdmem
    cases cs' with
    | nil => exact absurd rfl (decomp_ne_nil rest' [] hd)
    | cons z zs =>
      rw [List.dropLast_cons₂] at hdmem
      rcases List.mem_cons.mp hdmem with h | h
      · rwa [h]
      · exact ih d h

theorem decomp_mem_chars (l : List Char) (cs : List (List Char)) (hd : Decomp l cs) :
    ∀ c ∈ cs, ∀ x ∈ c, x ∈ l := by
  induction hd with
  | last c hnb =>
    intro d hdmem
    simp at hdmem
    subst hdmem
    exact fun x hx => hx
  | step c k rest' cs' hnb hp hk hrest hd ih =>
    intro d hdmem x hx
    rcases List.mem_cons.mp hdmem with h | h
    · subst h
      simp [hx]
    · simp [ih d h x hx]

theorem decomp_headSpace_all (l : List Char) (cs : List (List Char)) (hd : Decomp l cs)
    (hl : headSpace l = false) : ∀ c ∈ cs, headSpace c = false := by
  induction hd with
  | last c hnb => intro d hdmem; simp at hdmem; rwa [hdmem]
  | step c k rest' cs' hnb hp hk hrest hd ih =>
    intro d hdmem
    rcases List.mem_cons.mp hdmem with h | h
    · subst h
      cases d with
      | nil => rfl
      | cons a t =>
        rw [headSpace_append ((a :: t) ++ List.replicate k ' ') rest' (by simp),
          headSpace_append (a :: t) (List.replicate k ' ') (by simp)] at hl
        exact hl
    · exact ih hrest d h

theorem decomp_tail_headSpace (l : List Char) (cs : List (List Char)) (hd : Decomp l cs) :
    ∀ c ∈ cs.tail, headSpace c = false := by
  cases hd with
  | last hnb => intro d hdmem; simp at hdmem
  | step c k rest' cs' hnb hp hk hrest hd =>
    intro d hdmem
    exact decomp_headSpace_all rest' cs' hd hrest d (by simpa using hdmem)

theorem sentSplit_head_ne_nil (rest : List Char) (hne : rest ≠ [])
    (x : List Char) (t : List (List Char)) (h : sentSplit rest = x :: t) : x ≠ [] := by
  have hd := decomp_sentSplit rest
  rw [h] at hd
  cases hd with
  | last hnb => exact hne
  | step d k rest' cs' hnb hp hk hrest hd' => exact endsPunct_ne_nil x hp

theorem sentSplit_singleton (rest : List Char) (h : List Char)
    (hs : sentSplit rest = [h]) : h = rest := by
  have hd := decomp_sentSplit rest
  rw [hs] at hd
  cases hd with
  | last hnb => rfl
  | step d k rest' cs' hnb hp hk hrest hd' =>
    exact absurd rfl (decomp_ne_nil rest' [] hd')

theorem filter_keep_shape (cs : List (List Char))
    (h : ∀ c ∈ cs.dropLast, endsPunct c = true) :
    cs.filter keep = cs ∨ cs.filter keep = cs.dropLast := by
  induction cs with
  | nil => exact Or.inl rfl
  | cons x t ih =>
    cases t with
    | nil =>
      cases hk : keep x with
      | true => exact Or.inl (by simp [List.filter, hk])
      | false => exact Or.inr (by simp [List.filter, hk])
    | cons y u =>
      have hx : endsPunct x = true := h x (by rw [List.dropLast_cons₂]; simp)
      have hkx : keep x = true := keep_of_endsPunct x hx
      have ht : ∀ c ∈ (y :: u).dropLast, endsPunct c = true := by
        intro c hc
        refine h c ?_
        rw [List.dropLast_cons₂]
        simp [hc]
      rcases ih ht with h1 | h1
      · refine Or.inl ?_
        rw [List.filter_cons_of_pos hkx, h1]
      · refine Or.inr ?_
        rw [List.dropLast_cons₂, ← h1, List.filter_cons_of_pos hkx]

/-! ## The trimmer fixes well-formed input and is idempotent -/

theorem trimChars_nil : trimChars [] = [] := rfl

theorem trimChars_fixed (l : List Char) (h1 : endsPunct l = true)
    (h2 : noDoubleSpace l = true) : trimChars l = l := by
  induction l using splitRecursion with
  | h0 => exact absurd h1 (by simp [endsPunct])
  | h1 c rest hc hs ih =>
    cases rest with
    | nil => exact absurd hs (by simp [headSpace])
    | cons s rest₂ =>
      have hsp : s = ' ' := by simpa [headSpace] using hs
      subst hsp
      have hh2 : headSpace rest₂ = false := by
        cases rest₂ with
        | nil => rfl
        | cons b t =>
          rw [noDoubleSpace] at h2
          have hh := Bool.and_elim_left h2
          simp only [hc, Bool.true_and, decide_True, Bool.and_true,
            Bool.not_eq_eq_eq_not, Bool.not_true] at hh
          simpa [headSpace] using hh
      have hr2ne : rest₂ ≠ [] := by
        intro e
        subst e
        simp [endsPunct, List.getLast?_cons_cons, isPunct] at h1
      have h1r : endsPunct rest₂ = true := by
        rw [endsPunct_cons c _ (by simp), endsPunct_cons ' ' _ hr2ne] at h1
        exact h1
      have h2r : noDoubleSpace rest₂ = true :=
        noDoubleSpace_tail ' ' _ (noDoubleSpace_tail c _ h2)
      have hdrop : dropSpaces (' ' :: rest₂) = rest₂ := by
        rw [dropSpaces_cons_space, dropSpaces_of_headSpace_eq_false rest₂ hh2]
      rw [hdrop] at ih
      have hihr : trimChars rest₂ = rest₂ := ih h1r h2r
      have hkc : keep [c] = true := keep_of_endsPunct [c] (by simpa [endsPunct] using hc)
      obtain ⟨f, fs, hF⟩ : ∃ f fs, (sentSplit rest₂).filter keep = f :: fs := by
        cases hFc : (sentSplit rest₂).filter keep with
        | nil =>
          have : rest₂ = [] := by
            rw [← hihr, trimChars, hFc]
            rfl
          exact absurd this hr2ne
        | cons f fs => exact ⟨f, fs, rfl⟩
      rw [trimChars, sentSplit_cons_split c (' ' :: rest₂) hc (by simp [headSpace]), hdrop,
        List.filter_cons_of_pos hkc, hF, joinSp_cons₂]
      have hjoin : joinSp (f :: fs) = rest₂ := by
        rw [← hF, ← trimChars]
        exact hihr
      rw [hjoin]
      rfl
  | h2 c rest hg ih =>
    cases rest with
    | nil =>
      have hkc : keep [c] = true := keep_of_endsPunct [c] (by simpa [endsPunct] using h1)
      rw [trimChars, sentSplit_cons_flat c [] (by simp [headSpace])]
      rw [show sentSplit [] = [[]] from rfl]
      simp only [List.modifyHead]
      rw [List.filter_cons_of_pos hkc]
      rfl
    | cons b t =>
      have hrne : (b :: t) ≠ [] := by simp
      have h1r : endsPunct (b :: t) = true := by
        rw [endsPunct_cons c _ hrne] at h1
        exact h1
      have h2r : noDoubleSpace (b :: t) = true := noDoubleSpace_tail c _ h2
      have hihr : trimChars (b :: t) = b :: t := ih h1r h2r
      obtain ⟨x, xt, hx⟩ : ∃ x xt, sentSplit (b :: t) = x :: xt := by
        cases hsx : sentSplit (b :: t) with
        | nil => exact absurd hsx (sentSplit_ne_nil _)
        | cons x xt => exact ⟨x, xt, rfl⟩
      have hxne : x ≠ [] := sentSplit_head_ne_nil (b :: t) hrne x xt hx
      cases xt with
      | nil =>
        have hxeq : x = b :: t := sentSplit_singleton (b :: t) x hx
        subst hxeq
        have hkl : keep (c :: b :: t) = true := keep_of_endsPunct _ h1
        rw [trimChars, sentSplit_cons_flat c _ hg, hx]
        simp only [List.modifyHead]
        rw [List.filter_cons_of_pos hkl]
        rfl
      | cons y yt =>
        have hxp : endsPunct x = true := by
          refine decomp_dropLast_endsPunct (b :: t) _ (decomp_sentSplit (b :: t)) x ?_
          rw [hx, List.dropLast_cons₂]
          simp
        have hk1 : keep x = true := keep_of_endsPunct x hxp
        have hk2 : keep (c :: x) = true := by
          refine keep_of_endsPunct _ ?_
          rw [endsPunct_cons c x hxne]
          exact hxp
        have hexp : trimChars (b :: t) = joinSp (x :: (y :: yt).filter keep) := by
          rw [trimChars, hx, List.filter_cons_of_pos hk1]
        rw [trimChars, sentSplit_cons_flat c _ hg, hx]
        simp only [List.modifyHead]
        rw [List.filter_cons_of_pos hk2, joinSp_cons_cons, ← hexp, hihr]

theorem tail_dropLast_subset (cs : List (List Char)) :
    (cs.dropLast).tail ⊆ cs.tail := by
  cases cs with
  | nil => simp
  | cons x t =>
    cases t with
    | nil => simp
    | cons y u =>
      rw [List.dropLast_cons₂]
      exact List.dropLast_subset (y :: u)

theorem decomp_joinSp (ks : List (List Char)) (hks : ks ≠ [])
    (hdl : ∀ c ∈ ks.dropLast, endsPunct c = true)
    (hnb : ∀ c ∈ ks, noBoundary c = true)
    (hne : ∀ c ∈ ks, c ≠ [])
    (htl : ∀ c ∈ ks.tail, headSpace c = false) :
    Decomp (joinSp ks) ks := by
  induction ks with
  | nil => exact absurd rfl hks
  | cons x t ih =>
    cases t with
    | nil => exact Decomp.last x (hnb x (by simp))
    | cons y u =>
      have hy : y ≠ [] := hne y (by simp)
      have hd' : Decomp (joinSp (y :: u)) (y :: u) := by
        refine ih (by simp) ?_ ?_ ?_ ?_
        · intro d hd
          refine hdl d ?_
          rw [List.dropLast_cons₂]
          simp [hd]
        · intro d hd
          exact hnb d (by simp [hd])
        · intro d hd
          exact hne d (by simp [hd])
        · intro d hd
          refine htl d ?_
          simp only [List.tail_cons] at hd ⊢
          simp [hd]
      have hxp : endsPunct x = true := by
        refine hdl x ?_
        rw [List.dropLast_cons₂]
        simp
      have hhead : headSpace (joinSp (y :: u)) = false := by
        rw [joinSp_headSpace y u hy]
        exact htl y (by simp)
      have hstep := Decomp.step x 1 (joinSp (y :: u)) (y :: u)
        (hnb x (by simp)) hxp (by simp) hhead hd'
      have heq : x ++ List.replicate 1 ' ' ++ joinSp (y :: u) = joinSp (x :: y :: u) := by
        rw [joinSp_cons₂]
        simp
      rwa [heq] at hstep

theorem trimChars_idem (l : List Char) : trimChars (trimChars l) = trimChars l := by
  have hd := decomp_sentSplit l
  have hdl : ∀ c ∈ (sentSplit l).dropLast, endsPunct c = true :=
    decomp_dropLast_endsPunct l (sentSplit l) hd
  have hkeep : ∀ c ∈ (sentSplit l).filter keep, keep c = true :=
    fun c hc => List.of_mem_filter hc
  have hne : ∀ c ∈ (sentSplit l).filter keep, c ≠ [] :=
    fun c hc => keep_ne_nil c (hkeep c hc)
  have hnb : ∀ c ∈ (sentSplit l).filter keep, noBoundary c = true :=
    fun c hc => decomp_noBoundary l (sentSplit l) hd c (List.mem_of_mem_filter hc)
  have hdl' : ∀ c ∈ ((sentSplit l).filter keep).dropLast, endsPunct c = true := by
    rcases filter_keep_shape (sentSplit l) hdl with hF | hF <;> rw [hF]
    · exact hdl
    · intro c hc
      exact hdl c (List.dropLast_subset _ hc)
  have htl : ∀ c ∈ ((sentSplit l).filter keep).tail, headSpace c = false := by
    have htlcs : ∀ c ∈ (sentSplit l).tail, headSpace c = false :=
      decomp_tail_headSpace l (sentSplit l) hd
    rcases filter_keep_shape (sentSplit l) hdl with hF | hF <;> rw [hF]
    · exact htlcs
    · intro c hc
      exact htlcs c (tail_dropLast_subset (sentSplit l) hc)
  by_cases hks : (sentSplit l).filter keep = []
  · have hz : trimChars l = [] := by
      rw [trimChars, hks]
      rfl
    rw [hz]
    exact trimChars_nil
  · have hdj : Decomp (joinSp ((sentSplit l).filter keep)) ((sentSplit l).filter keep) :=
      decomp_joinSp _ hks hdl' hnb hne htl
    have hsplit : sentSplit (joinSp ((sentSplit l).filter keep)) = (sentSplit l).filter keep :=
      decomp_unique _ _ hdj
    have h1 : trimChars l = joinSp ((sentSplit l).filter keep) := rfl
    rw [h1, trimChars, hsplit, List.filter_eq_self.mpr hkeep]

/-! ## What the filter of line 31 accepts -/

theorem keep_concat_rev (m : List Char) (a : Char) :
    keep (m ++ [a]) = keepRev (a :: m.reverse) := by
  rw [keep, List.reverse_append]
  rfl

theorem keepSpec_of_keep (c : List Char) (h : keep c = true) : KeepSpec c := by
  induction c using List.reverseRecOn with
  | nil => simp [keep, keepRev] at h
  | append_singleton m a ihm =>
    rw [keep_concat_rev] at h
    cases hm : m.reverse with
    | nil =>
      rw [hm] at h
      exact Or.inl ⟨m, a, h, rfl⟩
    | cons b t =>
      rw [hm] at h
      have hmeq : m = t.reverse ++ [b] := by
        have hr := congrArg List.reverse hm
        simpa using hr
      have hsplit2 : isPunct a = true ∨ (a = '\n' ∧ isPunct b = true) := by
        simpa [keepRev] using h
      rcases hsplit2 with h1 | ⟨ha, hb⟩
      · exact Or.inl ⟨m, a, h1, rfl⟩
      · subst ha
        refine Or.inr ⟨t.reverse, b, hb, ?_⟩
        rw [hmeq]
        simp
  
theorem keep_of_keepSpec (c : List Char) (h : KeepSpec c) : keep c = true := by
  rcases h with ⟨l, p, hp, he⟩ | ⟨l, p, hp, he⟩
  · subst he
    exact keep_concat_punct l p hp
  · subst he
    rw [show l ++ [p, '\n'] = (l ++ [p]) ++ ['\n'] by simp]
    rw [keep_concat_rev]
    cases hr : (l ++ [p]).reverse with
    | nil =>
      have hx : (l ++ [p]).reverse ≠ [] := by simp
      exact absurd hr hx
    | cons b t =>
      have hb : b = p := by
        have := congrArg List.head? hr
        simpa [List.head?_reverse, List.getLast?_concat] using this.symm
      subst hb
      simp [keepRev, hp]

theorem trimChars_eq_nil_iff (l : List Char) :
    trimChars l = [] ↔ ∀ c ∈ sentSplit l, keep c = false := by
  constructor
  · intro h c hc
    cases hkc : keep c with
    | false => rfl
    | true =>
      have hfil : (sentSplit l).filter keep = [] :=
        joinSp_eq_nil _ (fun d hd => keep_ne_nil d (List.of_mem_filter hd)) h
      have hmem : c ∈ (sentSplit l).filter keep := List.mem_filter.mpr ⟨hc, hkc⟩
      rw [hfil] at hmem
      simp at hmem
  · intro h
    rw [trimChars, List.filter_eq_nil_iff.mpr (fun a ha => by simp [h a ha])]
    rfl

theorem keep_has_punct (c : List Char) (h : keep c = true) :
    ∃ p ∈ c, isPunct p = true := by
  rcases keepSpec_of_keep c h with ⟨l, p, hp, he⟩ | ⟨l, p, hp, he⟩ <;> subst he
  · exact ⟨p, by simp, hp⟩
  · exact ⟨p, by simp, hp⟩

theorem trimChars_of_no_punct (l : List Char) (h : ∀ x ∈ l, isPunct x = false) :
    trimChars l = [] := by
  rw [trimChars_eq_nil_iff]
  intro c hc
  cases hkc : keep c with
  | false => rfl
  | true =>
    obtain ⟨p, hpc, hp⟩ := keep_has_punct c hkc
    have hpl : p ∈ l :=
      decomp_mem_chars l (sentSplit l) (decomp_sentSplit l) c hc p hpc
    rw [h p hpl] at hp
    cases hp

/-! ## The claims -/

/-- C1, counterexample: the split of line 28 does NOT cut at a terminator
followed by arbitrary whitespace — a newline after `.` is not a separator.
On `"A.\nB."` the code keeps one candidate while the spec's
whitespace-based rule produces two. -/
theorem sentSplit_differs_from_whitespace_rule :
    sentSplit "A.\nB.".data = ["A.\nB.".data] ∧
    specSplitWhite "A.\nB.".data = ["A.".data, "B.".data] ∧
    sentSplit "A.\nB.".data ≠ specSplitWhite "A.\nB.".data := by
  decide

/-- C1, amended: the split of line 28 cuts exactly at the points after a
terminator `.!?` followed by one or more SPACE characters (not arbitrary
whitespace); the space run is consumed and kept in neither piece, and the
terminator stays attached to the preceding candidate — `Decomp` states
exactly that rule, and holds of precisely the candidate list the code
computes. -/
theorem sentSplit_iff_decomp (s : String) (cs : List (List Char)) :
    Decomp s.data cs ↔ sentSplit s.data = cs :=
  ⟨fun h => decomp_unique s.data cs h,
   fun h => h ▸ decomp_sentSplit s.data⟩

/-- C2, counterexample: a candidate whose last character is a newline (not a
terminator) survives the filter of line 31, because Python's `$` also
matches before a string-final newline: on input `"Hi.\n"` the single
candidate is kept and returned, where the claim requires the empty
string. -/
theorem keep_accepts_trailing_newline :
    sentSplit "Hi.\n".data = ["Hi.\n".data] ∧
    endsPunct "Hi.\n".data = false ∧
    trimSentences "Hi.\n" = "Hi.\n" := by
  decide

/-- C2, amended: the filter of line 31 keeps exactly the candidates that end
in a terminator or in a terminator followed by a single final newline
(`KeepSpec`), and the output is empty precisely when no candidate passes
that test (in particular on the empty input). -/
theorem filter_rule_and_empty_output (s : String) (c : List Char) :
    (keep c = true ↔ KeepSpec c) ∧
    (trimSentences s = "" ↔ ∀ d ∈ sentSplit s.data, keep d = false) := by
  refine ⟨⟨keepSpec_of_keep c, keep_of_keepSpec c⟩, ?_⟩
  rw [String.ext_iff]
  exact trimChars_eq_nil_iff s.data

/-- C3: feeding any fragment list through the endpoint gives the same
response as feeding the single fragment equal to their concatenation —
`''.join` inserts and loses nothing at fragment joins. -/
theorem fragment_join_invariance (fs : List String) :
    predictResponse fs = predictResponse [String.join fs] := by
  simp [predictResponse, String.join]

/-- C4, counterexample: a "well-formed" input in the claim's sense (a single
complete sentence ending in `.`) that the trimmer does NOT return
unchanged: the double space after the inner `.` is a split separator and
the rejoin collapses it to one space. -/
theorem wellformed_idempotence_fails_double_space :
    SentenceList ["He said.  Yes.".data] ∧
    trimSentences (String.mk (joinSp ["He said.  Yes.".data])) ≠
      String.mk (joinSp ["He said.  Yes.".data]) := by
  constructor
  · exact ⟨by decide, by decide⟩
  · decide

/-- C4, amended: the trimmer returns unchanged every string composed of
complete sentences (each nonempty, ending in `.!?`) joined by single
spaces, provided no terminator in the joined string is followed by two or
more consecutive spaces — the collapse of multi-space separators is the
only failure. -/
theorem trim_idempotent_on_wellformed_single_space (ss : List (List Char))
    (hws : SentenceList ss)
    (hnd : noDoubleSpace (joinSp ss) = true) :
    trimSentences (String.mk (joinSp ss)) = String.mk (joinSp ss) := by
  refine String.ext ?_
  exact trimChars_fixed (joinSp ss)
    (joinSp_endsPunct ss hws.1 (fun t ht => (hws.2 t ht).2)) hnd

/-- C4, witness: the amended idempotence applied to the concrete sentence
list `["Hi.", "Yes!"]`. -/
theorem trim_idempotent_on_wellformed_witness :
    trimSentences (String.mk (joinSp ["Hi.".data, "Yes!".data])) =
      String.mk (joinSp ["Hi.".data, "Yes!".data]) :=
  trim_idempotent_on_wellformed_single_space ["Hi.".data, "Yes!".data]
    ⟨by decide, by decide⟩ (by decide)

/-- C5: the composed prompt is exactly the literal concatenation
`"instruction: " + instruction + "\n" + "input: " + input + "\n" +
"output:"`, with no escaping and no length limiting (the length is exactly
the sum of the parts). -/
theorem prompt_template_exact (instr inp : String) :
    composePrompt instr inp =
      "instruction: " ++ instr ++ "\n" ++ "input: " ++ inp ++ "\n" ++ "output:" ∧
    (composePrompt instr inp).length = instr.length + inp.length + 29 := by
  constructor
  · refine String.ext ?_
    simp [composePrompt]
  · simp [composePrompt, String.length_append]
    rw [show ("instruction: " : String).length = 13 from rfl,
      show ("\ninput: " : String).length = 8 from rfl,
      show ("\noutput:" : String).length = 8 from rfl]
    omega

/-- C6: in the candidate list of the split of line 28, every candidate
except possibly the last ends in a terminator. -/
theorem nonfinal_candidates_end_in_terminator (s : String) (c : List Char)
    (hc : c ∈ (sentSplit s.data).dropLast) : endsPunct c = true :=
  decomp_dropLast_endsPunct s.data (sentSplit s.data) (decomp_sentSplit s.data) c hc

/-- C6, witness: the invariant at the concrete input `"a. b"`, whose first
candidate `"a."` is not last. -/
theorem nonfinal_candidates_end_in_terminator_witness :
    endsPunct "a.".data = true :=
  nonfinal_candidates_end_in_terminator "a. b" "a.".data (by decide)

/-- C7: the trimmer is a total function of the input string (it is a plain
Lean function), and on any input with no terminator anywhere — the empty
string included — it returns the empty string rather than failing. -/
theorem trim_total_no_punct_empty (s : String)
    (h : ∀ x ∈ s.data, isPunct x = false) : trimSentences s = "" :=
  String.ext (trimChars_of_no_punct s.data h)

/-- C7, witness: the trimmer on the punctuation-free input
`"just some words"`. -/
theorem trim_total_no_punct_empty_witness :
    trimSentences "just some words" = "" :=
  trim_total_no_punct_empty "just some words" (by decide)

/-- C8: for EVERY inbound request a generation request is still formed
(the embedding is a total function of the query), each of the three
parameters independently contributing its value when present and the empty
string when absent — the request always equals the field-by-field
`getD ""` defaults, whichever subset of parameters is missing — and a
parameter that is absent is read as the empty string rather than
failing. -/
theorem absent_params_default_empty (args : String → Option String) :
    (predictRequest args =
      { model := (args "model").getD "",
        prompt := composePrompt ((args "instruction").getD "") ((args "input").getD ""),
        maxLength := 100 }) ∧
    (args "input" = none → getArg args "input" = "") ∧
    (args "instruction" = none → getArg args "instruction" = "") ∧
    (args "model" = none → getArg args "model" = "") := by
  refine ⟨rfl, ?_, ?_, ?_⟩ <;> intro h <;> rw [getArg, h] <;> rfl

/-- C8, witness: the degenerate request formed from a query string with no
parameters at all — all-empty fields, still submitted with the fixed
`max_length`. -/
theorem absent_params_default_empty_witness :
    predictRequest (fun _ => none) =
      { model := "", prompt := "instruction: \ninput: \noutput:", maxLength := 100 } :=
  (absent_params_default_empty (fun _ => none)).1

/-- C9: every request to the external generation service carries the fixed
`max_length` of 100 — no request parameter influences it — and exactly the
composed prompt. -/
theorem generation_call_fixed_max_length (args : String → Option String) :
    (predictRequest args).maxLength = 100 ∧
    (predictRequest args).prompt =
      composePrompt (getArg args "instruction") (getArg args "input") :=
  ⟨rfl, rfl⟩

/-- C10: the trimmer is idempotent on every input, well-formed or not. -/
theorem trim_idempotent (s : String) :
    trimSentences (trimSentences s) = trimSentences s :=
  String.ext (trimChars_idem s.data)

end PredictApi
